import Mathlib

/-!
Shallow embedding of the `go-lua-pool` package (`src/pool.go`).

The pool is a bounded FIFO channel of Lua VM instances plus a mutex
guarding the refresh (`Update`) operation.  We model:

* an instance (`*lua.State`) by the index of the factory call that
  created it (`VM := Nat`) — the pool treats instances as opaque;
* the channel by a `List VM` (head = front of the queue), together with
  the channel semantics: a send completes only while the list is shorter
  than the capacity, a receive only while it is non-empty;
* the factory by a call log: `calls : List Bool` records every
  `createVM` invocation in order (`true` when the custom creator was
  used, `false` when the built-in `NewLuaVM` default was used); the VM
  produced by the i-th call is `i`, so freshness and call counts are
  observable;
* timing nondeterminism (Go `select` against a `time.After` channel) by
  a schedule parameter: a `budget : Nat` counting how many `select`
  iterations resolve in favour of the non-timer branch before the timer
  fires, and an `arrivals : List VM` stream of instances concurrently
  released into the channel during a blocking wait.
-/

namespace LuaPool

/-- An instance handle (`*lua.State`); identified by the index of the
`createVM` call that produced it. -/
abbrev VM := Nat

/-- The `Pool` struct from `pool.go`: fixed size, whether a custom
factory (`creator`) was supplied, the channel contents, and the log of
factory invocations. -/
structure Pool where
  size : Nat
  hasCreator : Bool
  queue : List VM
  calls : List Bool
deriving Repr, DecidableEq

/-- `Pool.createVM`: invoke the custom creator when present, otherwise
the default `NewLuaVM`; returns the fresh instance and records the
invocation in the call log. -/
def Pool.createVM (p : Pool) : VM × Pool :=
  (p.calls.length, { p with calls := p.calls ++ [p.hasCreator] })

/-- `Pool.Len`: `len(p.pool)`, the number of instances resident in the
channel. -/
def Pool.Len (p : Pool) : Nat := p.queue.length

/-- `Pool.Cap`: `cap(p.pool)`, the configured capacity. -/
def Pool.Cap (p : Pool) : Nat := p.size

/-- The fill loop of `Pool.init`: `k` more iterations of
`p.pool <- p.createVM()` (the channel is fresh, so no send blocks). -/
def initFill : Nat → Pool → Pool
  | 0, p => p
  | Nat.succ k, p =>
    let (v, p1) := p.createVM
    initFill k { p1 with queue := p1.queue ++ [v] }

/-- `NewPool(size, vmFactoryFunc)`: build the struct and run `init`,
which allocates the channel and fills it with `size` fresh instances.
`hasCreator` records whether a non-nil factory was supplied. -/
def newPool (size : Nat) (hasCreator : Bool) : Pool :=
  initFill size { size := size, hasCreator := hasCreator, queue := [], calls := [] }

/-- `Pool.Acquire`: `<-p.pool`.  Blocks while the channel is empty, so a
completed call exists exactly when the queue is non-empty (`none`
models an execution that never returns). -/
def Pool.acquire (p : Pool) : Option (VM × Pool) :=
  match p.queue with
  | v :: rest => some (v, { p with queue := rest })
  | [] => none

/-- `Pool.AcquireWithTimeout(to)`: select between `<-p.pool` and the
timer.  `arrivals` lists the instances concurrently released into the
channel before the deadline; the call times out exactly when nothing is
available and nothing arrives within the wait. -/
def Pool.acquireWithTimeout (p : Pool) (arrivals : List VM) :
    Except String VM × Pool :=
  match p.queue ++ arrivals with
  | v :: rest => (.ok v, { p with queue := rest })
  | [] => (.error "timeout", p)

/-- `ctx.Err()` of a fired context: cancellation or deadline expiry. -/
inductive CtxError where
  | canceled
  | deadlineExceeded
deriving Repr, DecidableEq

/-- `Pool.AcquireWithContext(ctx)`: select between `<-ctx.Done()` and
`<-p.pool`.  `done = some e` means the cancellation branch won the
select carrying error `e`; `none` on an empty queue models an execution
that never returns. -/
def Pool.acquireWithContext (p : Pool) (done : Option CtxError) :
    Option (Except CtxError VM × Pool) :=
  match done with
  | some e => some (.error e, p)
  | none =>
    match p.queue with
    | v :: rest => some (.ok v, { p with queue := rest })
    | [] => none

/-- `Pool.Release(vm)`: when `vm` is nil a fresh instance is created on
the fly; then a blocking send.  The send completes only while the
channel has room (`none` models an execution that never returns). -/
def Pool.release (p : Pool) (vm : Option VM) : Option Pool :=
  let (v, p1) :=
    match vm with
    | some v => (v, p)
    | none => p.createVM
  if p1.queue.length < p1.size then
    some { p1 with queue := p1.queue ++ [v] }
  else none

/-- The `ErrFailedToReleaseVM` error value. -/
inductive PoolError where
  | failedToReleaseVM
deriving Repr, DecidableEq

/-- `Pool.TryRelease(vm)`: when `vm` is nil a fresh instance is created
first; then a non-blocking send that fails with `ErrFailedToReleaseVM`
when the channel is full. -/
def Pool.tryRelease (p : Pool) (vm : Option VM) :
    Except PoolError Unit × Pool :=
  let (v, p1) :=
    match vm with
    | some v => (v, p)
    | none => p.createVM
  if p1.queue.length < p1.size then
    (.ok (), { p1 with queue := p1.queue ++ [v] })
  else (.error .failedToReleaseVM, p1)

/-- `Pool.TryReleaseWithContext(ctx, vm)`: when `vm` is nil a fresh
instance is created first; then a select between the send and
`<-ctx.Done()`.  `done = some e` means the cancellation branch won the
select; `none` on a full queue models an execution that never
returns. -/
def Pool.tryReleaseWithContext (p : Pool) (vm : Option VM)
    (done : Option CtxError) : Option (Except CtxError Unit × Pool) :=
  let (v, p1) :=
    match vm with
    | some v => (v, p)
    | none => p.createVM
  match done with
  | some e => some (.error e, p1)
  | none =>
    if p1.queue.length < p1.size then
      some (.ok (), { p1 with queue := p1.queue ++ [v] })
    else none

/-- The drain loop of `Update`: `k` more blocking receives `<-p.pool`
applied to the stream of instances that are in, or are concurrently
released into, the channel.  `none` models a drain that blocks forever
because the stream is exhausted. -/
def drainN : Nat → List VM → Option (List VM)
  | 0, s => some s
  | Nat.succ k, _ :: rest => drainN k rest
  | Nat.succ _, [] => none

/-- The refill loop of `Update`: `k` more iterations of
`p.pool <- p.createVM()`.  Each send completes only while the channel
has room; `none` models a refill that blocks forever on a full
channel. -/
def refillN : Nat → Pool → Option Pool
  | 0, p => some p
  | Nat.succ k, p =>
    let (v, p1) := p.createVM
    if p1.queue.length < p1.size then
      refillN k { p1 with queue := p1.queue ++ [v] }
    else none

/-- `Pool.Update()`: under the mutex, drain `cap(p.pool)` instances
(waiting for checked-out ones, supplied by `arrivals`, to be released),
then refill with `cap(p.pool)` freshly constructed ones.  A completed
call exists exactly when both blocking phases can finish. -/
def Pool.update (p : Pool) (arrivals : List VM) : Option Pool :=
  (drainN p.size (p.queue ++ arrivals)).bind fun leftover =>
    refillN p.size { p with queue := leftover }

/-- The drain loop of `UpdateWithTimeout`: each iteration is a `select`
between `<-p.pool` and the timer channel.  `budget` is the number of
`select` iterations the schedule resolves in favour of the non-timer
branch before the deadline; an iteration whose receive is not ready, or
whose budget is exhausted, is won by the timer.  Returns the drained
count, the rest of the stream, the remaining budget, and whether the
loop ran to completion. -/
def drainLoop : Nat → List VM → Nat → Nat × List VM × Nat × Bool
  | 0, s, b => (0, s, b, true)
  | Nat.succ k, v :: rest, Nat.succ b =>
    let r := drainLoop k rest b
    (r.1 + 1, r.2.1, r.2.2.1, r.2.2.2)
  | Nat.succ _, s, b => (0, s, b, false)

/-- The refill loop of `UpdateWithTimeout`: each iteration is a `select`
between `p.pool <- p.createVM()` and the timer.  Go evaluates the sent
value before the `select` chooses a branch, so `createVM` runs (and is
logged) even on the iteration the timer wins.  Returns the filled
count, the pool, and whether the loop ran to completion. -/
def refillLoop : Nat → Pool → Nat → Nat × Pool × Bool
  | 0, p, _ => (0, p, true)
  | Nat.succ k, p, b =>
    let (v, p1) := p.createVM
    match b with
    | 0 => (0, p1, false)
    | Nat.succ b2 =>
      if p1.queue.length < p1.size then
        let r := refillLoop k { p1 with queue := p1.queue ++ [v] } b2
        (r.1 + 1, r.2.1, r.2.2)
      else (0, p1, false)

/-- `Pool.UpdateWithTimeout(to)`: one deadline (`budget`, in select
iterations won before the timer fires) spans both phases.  A timeout in
the drain phase returns `(removedInstanceCount, 0)`; otherwise the
refill phase runs on the remaining budget and the call returns
`(removedInstanceCount, newInstanceCount)`. -/
def Pool.updateWithTimeout (p : Pool) (arrivals : List VM) (budget : Nat) :
    (Nat × Nat) × Pool :=
  let d := drainLoop p.size (p.queue ++ arrivals) budget
  if d.2.2.2 then
    let r := refillLoop p.size { p with queue := d.2.1 } d.2.2.1
    ((d.1, r.1), r.2.1)
  else ((d.1, 0), { p with queue := d.2.1 })

/-- `n` successive blocking `Acquire` calls, collecting the instances
handed out. -/
def Pool.acquireN : Nat → Pool → Option (List VM × Pool)
  | 0, p => some ([], p)
  | Nat.succ k, p =>
    match p.acquire with
    | some (v, p1) => (Pool.acquireN k p1).map fun r => (v :: r.1, r.2)
    | none => none

/-- Successive blocking `Release` calls handing the listed instances
back to the pool. -/
def Pool.releaseAll : List VM → Pool → Option Pool
  | [], p => some p
  | v :: vs, p =>
    match p.release (some v) with
    | some p1 => Pool.releaseAll vs p1
    | none => none

/-- One completed public operation of the pool, under any schedule.
`arrivals` streams are constrained by the channel bound: at any instant
at most `size - len` instances are checked out and able to arrive, so a
drain can consume at most `size` items in total. -/
inductive Step : Pool → Pool → Prop where
  | acquire (p : Pool) (v : VM) (p' : Pool)
      (h : p.acquire = some (v, p')) : Step p p'
  | acquireWithTimeout (p : Pool) (arrivals : List VM)
      (h : p.queue.length + arrivals.length ≤ p.size) :
      Step p (p.acquireWithTimeout arrivals).2
  | acquireWithContext (p : Pool) (done : Option CtxError)
      (r : Except CtxError VM) (p' : Pool)
      (h : p.acquireWithContext done = some (r, p')) : Step p p'
  | release (p : Pool) (vm : Option VM) (p' : Pool)
      (h : p.release vm = some p') : Step p p'
  | tryRelease (p : Pool) (vm : Option VM) :
      Step p (p.tryRelease vm).2
  | tryReleaseWithContext (p : Pool) (vm : Option VM)
      (done : Option CtxError) (r : Except CtxError Unit) (p' : Pool)
      (h : p.tryReleaseWithContext vm done = some (r, p')) : Step p p'
  | update (p : Pool) (arrivals : List VM) (p' : Pool)
      (harr : p.queue.length + arrivals.length ≤ p.size)
      (h : p.update arrivals = some p') : Step p p'
  | updateWithTimeout (p : Pool) (arrivals : List VM) (budget : Nat)
      (h : p.queue.length + arrivals.length ≤ p.size) :
      Step p (p.updateWithTimeout arrivals budget).2

/-- Pool states reachable from construction by sequences of completed
public operations. -/
inductive Reachable : Pool → Prop where
  | init (n : Nat) (b : Bool) : Reachable (newPool n b)
  | step (p q : Pool) : Reachable p → Step p q → Reachable q

lemma range_map_shift (c k : Nat) :
    (List.range (k + 1)).map (fun i => c + i) =
      c :: (List.range k).map (fun i => (c + 1) + i) := by
  rw [List.range_succ_eq_map, List.map_cons, List.map_map]
  have h : ((fun i => c + i) ∘ Nat.succ) = (fun i => (c + 1) + i) := by
    funext i
    simp [Function.comp]
    omega
  rw [h]
  simp

lemma initFill_spec (k : Nat) (p : Pool) :
    (initFill k p).size = p.size ∧
    (initFill k p).hasCreator = p.hasCreator ∧
    (initFill k p).queue =
      p.queue ++ (List.range k).map (fun i => p.calls.length + i) ∧
    (initFill k p).calls = p.calls ++ List.replicate k p.hasCreator := by
  induction k generalizing p with
  | zero => simp [initFill]
  | succ k ih =>
    rw [initFill]
    simp only [Pool.createVM]
    obtain ⟨h1, h2, h3, h4⟩ :=
      ih { p with queue := p.queue ++ [p.calls.length],
                  calls := p.calls ++ [p.hasCreator] }
    refine ⟨h1, h2, ?_, ?_⟩
    · rw [h3]
      simp only [List.length_append, List.length_singleton]
      rw [range_map_shift p.calls.length k]
      simp
    · rw [h4]
      simp [List.replicate_succ]

lemma newPool_spec (n : Nat) (b : Bool) :
    (newPool n b).size = n ∧
    (newPool n b).hasCreator = b ∧
    (newPool n b).queue = List.range n ∧
    (newPool n b).calls = List.replicate n b := by
  obtain ⟨h1, h2, h3, h4⟩ :=
    initFill_spec n { size := n, hasCreator := b, queue := [], calls := [] }
  refine ⟨h1, h2, ?_, h4⟩
  unfold newPool
  rw [h3]
  simp

/-- C4: for every capacity `n ≥ 1` and factory choice, immediately
after `NewPool` returns, `Len() == n` and `Cap() == n`, and the chosen
factory (custom when supplied, the built-in default otherwise) was
invoked exactly `n` times, in order: the call log is `n` entries of
that factory and the queue holds the instances of calls `0, …, n-1` in
order. -/
theorem C4_construction_fills_pool (n : Nat) (b : Bool) (h : 1 ≤ n) :
    (newPool n b).Len = n ∧ (newPool n b).Cap = n ∧
    (newPool n b).calls = List.replicate n b ∧
    (newPool n b).queue = List.range n := by
  obtain ⟨h1, _, h3, h4⟩ := newPool_spec n b
  exact ⟨by simp [Pool.Len, h3], by simp [Pool.Cap, h1], h4, h3⟩

/-- Witness for C4 at `n = 2` with a custom factory. -/
theorem C4_construction_fills_pool_witness :
    (newPool 2 true).Len = 2 ∧ (newPool 2 true).Cap = 2 ∧
    (newPool 2 true).calls = List.replicate 2 true ∧
    (newPool 2 true).queue = List.range 2 :=
  C4_construction_fills_pool 2 true (by decide)

/-- C7: on a pool with room (`Len() < Cap()`), `Release` of a nil
instance invokes the factory exactly once (the call log grows by one
entry of the configured factory) and increases `Len()` by one, and the
resulting length is identical to the one produced by releasing a real
instance, preserving the total instance count. -/
theorem C7_release_nil_replenishes (p : Pool) (h : p.Len < p.Cap) :
    ∃ p', p.release none = some p' ∧
      p'.Len = p.Len + 1 ∧
      p'.calls = p.calls ++ [p.hasCreator] ∧
      ∀ v : VM, ∃ q, p.release (some v) = some q ∧ q.Len = p'.Len := by
  refine ⟨{ p with
              queue := p.queue ++ [p.calls.length],
              calls := p.calls ++ [p.hasCreator] }, ?_, ?_, rfl, ?_⟩
  · have h' : p.queue.length < p.size := h
    simp [Pool.release, Pool.createVM, h']
  · simp [Pool.Len]
  · intro v
    refine ⟨{ p with queue := p.queue ++ [v] }, ?_, ?_⟩
    · have h' : p.queue.length < p.size := h
      simp [Pool.release, h']
    · simp [Pool.Len]

/-- Witness for C7: a pool of capacity 2 holding one instance. -/
theorem C7_release_nil_replenishes_witness :
    ∃ p', (Pool.mk 2 true [0] [true]).release none = some p' ∧
      p'.Len = 2 ∧ p'.calls = [true, true] ∧
      ∀ v : VM, ∃ q, (Pool.mk 2 true [0] [true]).release (some v) = some q ∧
        q.Len = p'.Len := by
  obtain ⟨p', h1, h2, h3, h4⟩ :=
    C7_release_nil_replenishes (Pool.mk 2 true [0] [true]) (by decide)
  exact ⟨p', h1, by rw [h2]; rfl, h3, h4⟩

/-- C6: `TryRelease(vm)` on a full pool returns `ErrFailedToReleaseVM`
without touching the queue; on a pool with room it appends the instance
and returns no error. -/
theorem C6_tryRelease_full_fails (p : Pool) (v : VM) :
    (p.Len = p.Cap →
      p.tryRelease (some v) = (.error .failedToReleaseVM, p)) ∧
    (p.Len < p.Cap →
      p.tryRelease (some v) =
        (.ok (), { p with queue := p.queue ++ [v] })) := by
  constructor
  · intro h
    simp [Pool.tryRelease, Pool.Len, Pool.Cap] at h ⊢
    omega
  · intro h
    simp [Pool.tryRelease, Pool.Len, Pool.Cap] at h ⊢
    exact h

/-- Witness for C6: the full branch at a full pool of capacity 1 and the
room branch at an empty pool of capacity 1. -/
theorem C6_tryRelease_full_fails_witness :
    (Pool.mk 1 false [0] [false]).tryRelease (some 7) =
      (.error .failedToReleaseVM, Pool.mk 1 false [0] [false]) ∧
    (Pool.mk 1 false [] [false]).tryRelease (some 7) =
      (.ok (), Pool.mk 1 false [7] [false]) :=
  ⟨(C6_tryRelease_full_fails (Pool.mk 1 false [0] [false]) 7).1 (by decide),
   (C6_tryRelease_full_fails (Pool.mk 1 false [] [false]) 7).2 (by decide)⟩

/-- C10: `TryRelease(nil)` on a full pool still invokes the factory
exactly once before failing: it returns `ErrFailedToReleaseVM`, the
queue is unchanged, and the call log has grown by exactly the one fresh
construction, whose instance is discarded (it is not in the queue). -/
theorem C10_tryRelease_nil_full_creates_then_discards
    (p : Pool) (h : p.Len = p.Cap) :
    p.tryRelease none =
      (.error .failedToReleaseVM,
        { p with calls := p.calls ++ [p.hasCreator] }) ∧
    ((p.tryRelease none).2.queue = p.queue ∧
      (p.tryRelease none).2.calls.length = p.calls.length + 1) := by
  have hq : ¬ p.queue.length < p.size := by
    simp [Pool.Len, Pool.Cap] at h
    omega
  constructor
  · simp [Pool.tryRelease, Pool.createVM, hq]
  · simp [Pool.tryRelease, Pool.createVM, hq]

/-- Witness for C10: a full pool of capacity 2. -/
theorem C10_tryRelease_nil_full_creates_then_discards_witness :
    (Pool.mk 2 true [0, 1] [true, true]).tryRelease none =
      (.error .failedToReleaseVM, Pool.mk 2 true [0, 1] [true, true, true]) :=
  (C10_tryRelease_nil_full_creates_then_discards
    (Pool.mk 2 true [0, 1] [true, true]) (by decide)).1

/-- C3: a context operation that returns because the cancellation
signal fired propagates the signal's error and has no partial side
effect: a cancelled `AcquireWithContext` removed nothing from the queue
and a cancelled `TryReleaseWithContext` inserted nothing (for a nil
instance the replacement was constructed before the select, but it is
not inserted). -/
theorem C3_context_cancellation_no_side_effect
    (p : Pool) (e : CtxError) (vm : Option VM) :
    p.acquireWithContext (some e) = some (.error e, p) ∧
    ∃ p1, p.tryReleaseWithContext vm (some e) = some (.error e, p1) ∧
      p1.queue = p.queue := by
  refine ⟨rfl, ?_⟩
  match vm with
  | some v => exact ⟨p, rfl, rfl⟩
  | none =>
    exact ⟨{ p with calls := p.calls ++ [p.hasCreator] }, rfl, rfl⟩

/-- C5: `AcquireWithTimeout(d)` hands out the first available instance
with no error whenever one is in the queue or arrives during the wait,
and returns the `timeout` error exactly when no instance became
available within the wait (nothing queued and nothing arriving). -/
theorem C5_acquireWithTimeout_behaviour (p : Pool) (arrivals : List VM) :
    (∀ v rest, p.queue ++ arrivals = v :: rest →
      p.acquireWithTimeout arrivals = (.ok v, { p with queue := rest })) ∧
    ((p.acquireWithTimeout arrivals).1 = .error "timeout" ↔
      p.queue ++ arrivals = []) := by
  constructor
  · intro v rest hv
    simp [Pool.acquireWithTimeout, hv]
  · match hs : p.queue ++ arrivals with
    | [] => simp [Pool.acquireWithTimeout, hs]
    | v :: rest => simp [Pool.acquireWithTimeout, hs]

/-- Witness for C5: a singleton queue hands out its instance; an empty
pool with no arrivals times out. -/
theorem C5_acquireWithTimeout_behaviour_witness :
    (Pool.mk 1 true [5] [true]).acquireWithTimeout [] =
      (.ok 5, Pool.mk 1 true [] [true]) ∧
    ((Pool.mk 1 true [] [true]).acquireWithTimeout []).1 = .error "timeout" :=
  ⟨(C5_acquireWithTimeout_behaviour (Pool.mk 1 true [5] [true]) []).1
      5 [] rfl,
   ((C5_acquireWithTimeout_behaviour (Pool.mk 1 true [] [true]) []).2).mpr
      rfl⟩

lemma acquireN_spec (k : Nat) (p : Pool) (h : k ≤ p.queue.length) :
    p.acquireN k = some (p.queue.take k, { p with queue := p.queue.drop k }) := by
  induction k generalizing p with
  | zero => simp [Pool.acquireN]
  | succ k ih =>
    match hq : p.queue with
    | [] => rw [hq] at h; simp at h
    | v :: rest =>
      rw [hq] at h
      have h' : k ≤ rest.length := by simpa using h
      have step := ih { p with queue := rest } h'
      rw [Pool.acquireN, Pool.acquire, hq]
      simp only [step, Option.map_some]
      simp [hq]

lemma releaseAll_spec (vs : List VM) (p : Pool)
    (h : p.queue.length + vs.length ≤ p.size) :
    Pool.releaseAll vs p = some { p with queue := p.queue ++ vs } := by
  induction vs generalizing p with
  | nil => simp [Pool.releaseAll]
  | cons v vs ih =>
    have hlt : p.queue.length < p.size := by
      simp [List.length_cons] at h
      omega
    have step := ih { p with queue := p.queue ++ [v] }
      (by simp [List.length_cons] at h ⊢; omega)
    rw [Pool.releaseAll, Pool.release]
    simp only [hlt, if_pos]
    rw [step]
    simp

/-- C8: each `Acquire` removes exactly one instance; acquiring
`capacity` instances from a full pool drives `Len()` to 0, and
releasing all of them afterwards restores `Len()` to `Cap()`. -/
theorem C8_acquire_release_roundtrip (p : Pool) (h : p.Len = p.Cap) :
    (∀ v p', p.acquire = some (v, p') → p'.Len + 1 = p.Len) ∧
    ∃ vs p0 p1, p.acquireN p.size = some (vs, p0) ∧ p0.Len = 0 ∧
      vs.length = p.size ∧ Pool.releaseAll vs p0 = some p1 ∧
      p1.Len = p1.Cap ∧ p1.Cap = p.Cap := by
  have hlen : p.queue.length = p.size := h
  constructor
  · intro v p' hv
    match hq : p.queue with
    | [] => rw [Pool.acquire, hq] at hv; simp at hv
    | w :: rest =>
      rw [Pool.acquire, hq] at hv
      simp at hv
      obtain ⟨-, hp'⟩ := hv
      rw [← hp']
      simp [Pool.Len, hq]
  · refine ⟨p.queue.take p.size, { p with queue := p.queue.drop p.size },
      { p with queue := p.queue.drop p.size ++ p.queue.take p.size },
      acquireN_spec p.size p (le_of_eq hlen.symm), ?_, ?_,
      releaseAll_spec _ _ (by simp [hlen]), ?_, rfl⟩
    · simp [Pool.Len, hlen]
    · simp [hlen]
    · simp [Pool.Len, Pool.Cap, hlen]

/-- Witness for C8: a full pool of capacity 2. -/
theorem C8_acquire_release_roundtrip_witness :
    (∀ v p', (Pool.mk 2 false [4, 9] []).acquire = some (v, p') →
      p'.Len + 1 = (Pool.mk 2 false [4, 9] []).Len) ∧
    ∃ vs p0 p1, (Pool.mk 2 false [4, 9] []).acquireN 2 = some (vs, p0) ∧
      p0.Len = 0 ∧ vs.length = 2 ∧ Pool.releaseAll vs p0 = some p1 ∧
      p1.Len = p1.Cap ∧ p1.Cap = 2 :=
  C8_acquire_release_roundtrip (Pool.mk 2 false [4, 9] []) (by decide)

lemma drainN_some (k : Nat) (s : List VM) (l : List VM)
    (h : drainN k s = some l) : l = s.drop k ∧ k ≤ s.length := by
  induction k generalizing s with
  | zero =>
    rw [drainN] at h
    simpa using h.symm
  | succ k ih =>
    match s with
    | [] => rw [drainN] at h; simp at h
    | v :: rest =>
      rw [drainN] at h
      obtain ⟨h1, h2⟩ := ih rest h
      exact ⟨h1, by simpa using Nat.succ_le_succ h2⟩

lemma refillN_some (k : Nat) (p q : Pool) (h : refillN k p = some q) :
    (0 < k → p.queue.length + k ≤ p.size) ∧
    q.size = p.size ∧ q.hasCreator = p.hasCreator ∧
    q.queue = p.queue ++ (List.range k).map (fun i => p.calls.length + i) ∧
    q.calls = p.calls ++ List.replicate k p.hasCreator := by
  induction k generalizing p with
  | zero =>
    rw [refillN] at h
    simp at h
    simp [← h]
  | succ k ih =>
    rw [refillN] at h
    simp only [Pool.createVM] at h
    by_cases hc : p.queue.length < p.size
    · rw [if_pos (by simpa using hc)] at h
      obtain ⟨h1, h2, h3, h4, h5⟩ := ih _ h
      simp only [List.length_append, List.length_singleton] at h1 h4 h5
      refine ⟨?_, by simpa using h2, by simpa using h3, ?_, ?_⟩
      · intro _
        rcases Nat.eq_zero_or_pos k with hk | hk
        · omega
        · have := h1 hk
          omega
      · rw [h4, range_map_shift p.calls.length k]
        simp
      · rw [h5]
        simp [List.replicate_succ]
    · rw [if_neg (by simpa using hc)] at h
      simp at h

/-- C2: when `Update()` returns, the queue holds exactly `capacity`
instances (`Len() == Cap()`), each constructed by a factory call made
during that `Update` (the instances are the `capacity` consecutive
fresh construction indices, logged in order), the drain phase consumed
exactly `capacity` items from the stream of queued and concurrently
released instances, and the refill phase inserted exactly `capacity`
freshly constructed items. -/
theorem C2_update_exactly_capacity_fresh (p : Pool) (arrivals : List VM)
    (p' : Pool) (hcap : 1 ≤ p.size) (h : p.update arrivals = some p') :
    (p.queue ++ arrivals).length = p.size ∧
    p'.Len = p'.Cap ∧ p'.Cap = p.Cap ∧
    p'.queue = (List.range p.size).map (fun i => p.calls.length + i) ∧
    p'.calls = p.calls ++ List.replicate p.size p.hasCreator ∧
    ∀ v ∈ p'.queue, p.calls.length ≤ v := by
  rw [Pool.update] at h
  obtain ⟨leftover, hd, hr⟩ := Option.bind_eq_some.mp h
  obtain ⟨hl, hk⟩ := drainN_some p.size _ leftover hd
  obtain ⟨h1, h2, h3, h4, h5⟩ := refillN_some p.size _ p' hr
  simp only at h1 h2 h3 h4 h5
  have hbound := h1 hcap
  have hempty : leftover = [] := by
    have : leftover.length = 0 := by omega
    simpa using this
  subst hempty
  have hdroplen : ((p.queue ++ arrivals).drop p.size).length = 0 := by
    rw [← hl]
    rfl
  have hstream : (p.queue ++ arrivals).length = p.size := by
    rw [List.length_drop] at hdroplen
    omega
  refine ⟨hstream, ?_, h2, by simpa using h4, by simpa using h5, ?_⟩
  · simp [Pool.Len, Pool.Cap, h4, h2]
  · intro v hv
    rw [h4] at hv
    simp only [List.nil_append, List.mem_map, List.mem_range] at hv
    obtain ⟨i, -, hi⟩ := hv
    subst hi
    simp

/-- Witness for C2: a full pool of capacity 2 refreshed with no
concurrent arrivals. -/
theorem C2_update_exactly_capacity_fresh_witness :
    ([0, 1].length = 2 ∧
      (Pool.mk 2 true [2, 3] [true, true, true, true]).Len =
        (Pool.mk 2 true [2, 3] [true, true, true, true]).Cap) ∧
    (Pool.mk 2 true [0, 1] [true, true]).update [] =
      some (Pool.mk 2 true [2, 3] [true, true, true, true]) := by
  have happ : (Pool.mk 2 true [0, 1] [true, true]).update [] =
      some (Pool.mk 2 true [2, 3] [true, true, true, true]) := by rfl
  obtain ⟨hs, hlen, -⟩ :=
    C2_update_exactly_capacity_fresh (Pool.mk 2 true [0, 1] [true, true]) []
      (Pool.mk 2 true [2, 3] [true, true, true, true]) (by decide) happ
  exact ⟨⟨hs, hlen⟩, happ⟩

lemma drainLoop_nil (n b : Nat) :
    drainLoop (n + 1) [] b = (0, [], b, false) := by
  cases b <;> rfl

lemma drainLoop_cons_zero (n : Nat) (v : VM) (rest : List VM) :
    drainLoop (n + 1) (v :: rest) 0 = (0, v :: rest, 0, false) := rfl

lemma drainLoop_completed (n : Nat) (s : List VM) (b : Nat)
    (h : (drainLoop n s b).2.2.2 = true) : (drainLoop n s b).1 = n := by
  induction n generalizing s b with
  | zero => rfl
  | succ n ih =>
    match s, b with
    | v :: rest, Nat.succ b =>
      rw [drainLoop] at h ⊢
      simpa using ih rest b (by simpa using h)
    | [], b => rw [drainLoop_nil] at h; simp at h
    | v :: rest, 0 => rw [drainLoop_cons_zero] at h; simp at h

/-- C1: for a pool of capacity `n ≥ 1`, if `UpdateWithTimeout`'s single
deadline elapses during the drain phase the call stops and returns
`(drained-count, 0)`; if the drain phase runs to completion (so any
timeout hits the refill phase) the first component of the result is the
capacity `n`; in particular, when all `n` instances are checked out and
none is released within the deadline, the call returns `(0, 0)`. -/
theorem C1_updateWithTimeout_phase_counts (p : Pool) (arrivals : List VM)
    (budget : Nat) (hcap : 1 ≤ p.size) :
    ((drainLoop p.size (p.queue ++ arrivals) budget).2.2.2 = false →
      (p.updateWithTimeout arrivals budget).1 =
        ((drainLoop p.size (p.queue ++ arrivals) budget).1, 0)) ∧
    ((drainLoop p.size (p.queue ++ arrivals) budget).2.2.2 = true →
      (p.updateWithTimeout arrivals budget).1.1 = p.Cap) ∧
    (p.queue = [] → arrivals = [] →
      (p.updateWithTimeout arrivals budget).1 = (0, 0)) := by
  refine ⟨?_, ?_, ?_⟩
  · intro hfail
    rw [Pool.updateWithTimeout]
    simp only [hfail]
    simp
  · intro hdone
    rw [Pool.updateWithTimeout]
    simp only [hdone]
    simpa using drainLoop_completed p.size (p.queue ++ arrivals) budget hdone
  · intro hq ha
    obtain ⟨n, hn⟩ : ∃ n, p.size = n + 1 := ⟨p.size - 1, by omega⟩
    rw [Pool.updateWithTimeout, hq, ha, hn]
    simp only [List.append_nil]
    rw [drainLoop_nil]
    simp

/-- Witness for C1: a pool of capacity 1 with its only instance checked
out and never released returns `(0, 0)`. -/
theorem C1_updateWithTimeout_phase_counts_witness :
    ((Pool.mk 1 true [] [true]).updateWithTimeout [] 10).1 = (0, 0) :=
  (C1_updateWithTimeout_phase_counts (Pool.mk 1 true [] [true]) [] 10
    (by decide)).2.2 rfl rfl

lemma drainLoop_leftover_le (n : Nat) (s : List VM) (b : Nat) :
    (drainLoop n s b).2.1.length ≤ s.length := by
  induction n generalizing s b with
  | zero => simp [drainLoop]
  | succ n ih =>
    match s, b with
    | v :: rest, Nat.succ b =>
      rw [drainLoop]
      exact Nat.le_trans (ih rest b) (by simp)
    | [], b => rw [drainLoop_nil]
    | v :: rest, 0 => rw [drainLoop_cons_zero]

lemma refillLoop_budget_zero (k : Nat) (p : Pool) :
    refillLoop (k + 1) p 0 =
      (0, { p with calls := p.calls ++ [p.hasCreator] }, false) := rfl

lemma refillLoop_budget_succ (k : Nat) (p : Pool) (b2 : Nat) :
    refillLoop (k + 1) p (b2 + 1) =
      if p.queue.length < p.size then
        ((refillLoop k { p with
            queue := p.queue ++ [p.calls.length],
            calls := p.calls ++ [p.hasCreator] } b2).1 + 1,
         (refillLoop k { p with
            queue := p.queue ++ [p.calls.length],
            calls := p.calls ++ [p.hasCreator] } b2).2.1,
         (refillLoop k { p with
            queue := p.queue ++ [p.calls.length],
            calls := p.calls ++ [p.hasCreator] } b2).2.2)
      else (0, { p with calls := p.calls ++ [p.hasCreator] }, false) := rfl

lemma refillLoop_bound (k : Nat) (p : Pool) (b : Nat)
    (h : p.queue.length ≤ p.size) :
    ((refillLoop k p b).2.1).size = p.size ∧
    ((refillLoop k p b).2.1).queue.length ≤ p.size := by
  induction k generalizing p b with
  | zero => exact ⟨rfl, h⟩
  | succ k ih =>
    match b with
    | 0 => rw [refillLoop_budget_zero]; exact ⟨rfl, h⟩
    | Nat.succ b2 =>
      rw [refillLoop_budget_succ]
      by_cases hc : p.queue.length < p.size
      · rw [if_pos hc]
        have step := ih { p with
          queue := p.queue ++ [p.calls.length],
          calls := p.calls ++ [p.hasCreator] } b2
          (by simp; omega)
        simpa using step
      · rw [if_neg hc]
        exact ⟨rfl, h⟩

lemma step_preserves_len (p q : Pool) (hs : Step p q)
    (h : p.queue.length ≤ p.size) : q.queue.length ≤ q.size := by
  cases hs with
  | acquire v p' hpa =>
    match hqq : p.queue with
    | [] => rw [Pool.acquire.eq_def, hqq] at hpa; simp at hpa
    | w :: rest =>
      rw [Pool.acquire.eq_def, hqq] at hpa
      simp at hpa
      rw [← hpa.2]
      rw [hqq] at h
      simp at h ⊢
      omega
  | acquireWithTimeout arrivals harr =>
    match hstream : p.queue ++ arrivals with
    | [] =>
      rw [Pool.acquireWithTimeout.eq_def, hstream]
      exact h
    | v :: rest =>
      rw [Pool.acquireWithTimeout.eq_def, hstream]
      have hlen := congrArg List.length hstream
      simp at hlen ⊢
      omega
  | acquireWithContext done r p' hpa =>
    match done with
    | some e =>
      rw [Pool.acquireWithContext.eq_def] at hpa
      simp at hpa
      rw [← hpa.2]
      exact h
    | none =>
      match hqq : p.queue with
      | [] => rw [Pool.acquireWithContext.eq_def, hqq] at hpa; simp at hpa
      | w :: rest =>
        rw [Pool.acquireWithContext.eq_def, hqq] at hpa
        simp at hpa
        rw [← hpa.2]
        rw [hqq] at h
        simp at h ⊢
        omega
  | release vm p' hr =>
    rw [Pool.release.eq_def] at hr
    match vm with
    | some v =>
      simp only at hr
      split at hr
      · simp at hr
        rw [← hr]
        simp at *
        omega
      · simp at hr
    | none =>
      simp only [Pool.createVM] at hr
      split at hr
      · simp at hr
        rw [← hr]
        simp at *
        omega
      · simp at hr
  | tryRelease vm =>
    rw [Pool.tryRelease.eq_def]
    match vm with
    | some v =>
      simp only
      split
      · simp at *
        omega
      · exact h
    | none =>
      simp only [Pool.createVM]
      split
      · simp at *
        omega
      · exact h
  | tryReleaseWithContext vm done r p' hr =>
    rw [Pool.tryReleaseWithContext.eq_def] at hr
    match vm, done with
    | some v, some e =>
      simp at hr
      rw [← hr.2]
      exact h
    | none, some e =>
      simp only [Pool.createVM] at hr
      simp at hr
      rw [← hr.2]
      exact h
    | some v, none =>
      simp only at hr
      split at hr
      · simp at hr
        rw [← hr.2]
        simp at *
        omega
      · simp at hr
    | none, none =>
      simp only [Pool.createVM] at hr
      split at hr
      · simp at hr
        rw [← hr.2]
        simp at *
        omega
      · simp at hr
  | update arrivals p' harr hr =>
    rw [Pool.update] at hr
    obtain ⟨leftover, hd, hrf⟩ := Option.bind_eq_some.mp hr
    obtain ⟨hl, hk⟩ := drainN_some p.size _ leftover hd
    obtain ⟨h1, h2, -, h4, -⟩ := refillN_some p.size _ _ hrf
    simp only at h1 h2 h4
    have hllen : leftover.length =
        p.queue.length + arrivals.length - p.size := by
      rw [hl]
      simp [List.length_append]
    have hstreamlen : (p.queue ++ arrivals).length ≤ p.size := by
      simpa using harr
    rw [h2, h4]
    simp
    refine List.eq_nil_of_length_eq_zero ?_
    simp [List.length_append] at hk hstreamlen
    omega
  | updateWithTimeout arrivals budget harr =>
    rw [Pool.updateWithTimeout]
    have hleft := drainLoop_leftover_le p.size (p.queue ++ arrivals) budget
    have hstreamlen : (p.queue ++ arrivals).length ≤ p.size := by
      simpa using harr
    by_cases hc : (drainLoop p.size (p.queue ++ arrivals) budget).2.2.2
    · simp only [hc, if_true]
      have hstart : ({ p with
          queue := (drainLoop p.size (p.queue ++ arrivals) budget).2.1
          } : Pool).queue.length ≤
          ({ p with
            queue := (drainLoop p.size (p.queue ++ arrivals) budget).2.1
            } : Pool).size := by
        simp
        omega
      have hb := refillLoop_bound p.size
        { p with queue := (drainLoop p.size (p.queue ++ arrivals) budget).2.1 }
        (drainLoop p.size (p.queue ++ arrivals) budget).2.2.1 hstart
      simp only at hb
      omega
    · simp only [hc, if_false]
      simp
      omega

/-- C9: every pool state reachable from construction by completed
public operations keeps `Len()` within `[0, Cap()]`: no operation makes
the queue hold fewer than zero or more than `capacity` instances. -/
theorem C9_len_always_within_bounds (p : Pool) (h : Reachable p) :
    0 ≤ p.Len ∧ p.Len ≤ p.Cap := by
  refine ⟨Nat.zero_le _, ?_⟩
  induction h with
  | init n b =>
    obtain ⟨h1, -, h3, -⟩ := newPool_spec n b
    simp [Pool.Len, Pool.Cap, h1, h3]
  | step p q hp hs ih => exact step_preserves_len p q hs ih

/-- Witness for C9: the freshly constructed pool of capacity 2. -/
theorem C9_len_always_within_bounds_witness :
    0 ≤ (newPool 2 true).Len ∧ (newPool 2 true).Len ≤ (newPool 2 true).Cap :=
  C9_len_always_within_bounds (newPool 2 true) (Reachable.init 2 true)

end LuaPool
